import Mathlib

/-!
Verification of the md-parser segmentation and extraction pipeline.

Shallow embedding of the Rust sources (`src/parser.rs`, `src/checklist.rs`,
`src/variables.rs`, `src/frontmatter.rs`, `src/section.rs`, `src/document.rs`,
`src/error.rs`).  Text is modelled as `List Char`; Rust byte indices computed by
`str::find` are modelled as character indices, which is equivalent here because
every slice boundary in the modelled code sits at a match of an ASCII pattern.
External collaborators (the pulldown-cmark tokenizer and the serde_yaml parser)
are not part of the repository; they are either universally quantified or
modelled from the spec where a concrete behaviour is needed.
-/

namespace MdParser

/-- Abbreviation: the character list of a string literal. -/
def str (s : String) : List Char := s.data

/-- The Unicode `White_Space` property: this is both what `char::is_whitespace`
(used by Rust `str::trim` / `trim_start`) and the regex class `\s` match. -/
def isUnicodeWs (c : Char) : Bool :=
  (0x09 ≤ c.val && c.val ≤ 0x0D) || c.val = 0x20 || c.val = 0x85 || c.val = 0xA0 ||
  c.val = 0x1680 || (0x2000 ≤ c.val && c.val ≤ 0x200A) ||
  c.val = 0x2028 || c.val = 0x2029 || c.val = 0x202F || c.val = 0x205F || c.val = 0x3000

/-- Number of bytes of the UTF-8 encoding of `c`; Rust `str::len` on a
character run is the sum of these. -/
def utf8Len (c : Char) : Nat :=
  if c.val < 0x80 then 1 else if c.val < 0x800 then 2 else if c.val < 0x10000 then 3 else 4

/-- Rust `str::len` (byte length) of a character run. -/
def utf8ByteLen (l : List Char) : Nat := (l.map utf8Len).sum

/-- Rust `str::trim_start`. -/
def trimStart (l : List Char) : List Char := l.dropWhile isUnicodeWs

/-- Rust `str::trim_end`. -/
def trimEnd (l : List Char) : List Char := (l.reverse.dropWhile isUnicodeWs).reverse

/-- Rust `str::trim`. -/
def trim (l : List Char) : List Char := trimEnd (trimStart l)

/-- ASCII fragment of the regex word class `\w` (letters, digits, underscore).
Rust's `\w` is Unicode-aware; the claims under verification do not depend on
the non-ASCII part of the class, so the embedding fixes the ASCII fragment. -/
def isWordChar (c : Char) : Bool :=
  ('a' ≤ c && c ≤ 'z') || ('A' ≤ c && c ≤ 'Z') || ('0' ≤ c && c ≤ '9') || c = '_'

/-- Fuel-driven worker for `scanVariables`; the fuel (initially the input
length) only serves to make the recursion structural, every recursive call
strictly shrinks the scanned list. -/
def scanVarsF : Nat → List Char → List (List Char)
  | 0, _ => []
  | _ + 1, [] => []
  | fuel + 1, '{' :: '{' :: rest2 =>
    let name := rest2.takeWhile isWordChar
    if name.isEmpty then scanVarsF fuel ('{' :: rest2)
    else
      match rest2.dropWhile isWordChar with
      | '}' :: '}' :: rest4 => name :: scanVarsF fuel rest4
      | _ => scanVarsF fuel ('{' :: rest2)
  | fuel + 1, _ :: rest => scanVarsF fuel rest

/-- Source `src/variables.rs`, `VARIABLE_REGEX = \{\{(\w+)\}\}` together with
`captures_iter`: successive non-overlapping leftmost matches.  At a position
starting with `{{`, the greedy `\w+` takes the maximal word run; the match
succeeds iff that run is non-empty and is followed by `}}` (no backtracking can
succeed otherwise, since a shortened run leaves a word character where `}` is
required).  On failure the scan advances one character. -/
def scanVariables (l : List Char) : List (List Char) :=
  scanVarsF l.length l

/-- Source `src/variables.rs::extract_variables`: all placeholder names in occurrence
order, duplicates included. -/
def extract_variables (content : List Char) : List (List Char) :=
  scanVariables content

/-- First-occurrence deduplication; models collecting into a `HashSet` (the
iteration order of which is unspecified and irrelevant after sorting). -/
def dedupFirstAux [DecidableEq α] (seen : List α) : List α → List α
  | [] => []
  | a :: as => if a ∈ seen then dedupFirstAux seen as else a :: dedupFirstAux (a :: seen) as

/-- First-occurrence deduplication of a list. -/
def dedupFirst [DecidableEq α] (l : List α) : List α := dedupFirstAux [] l

/-- Source `src/variables.rs::extract_unique_variables`: collect the names into a
`HashSet`, pour it into a vector, sort.  The set is modelled as the
first-occurrence deduplication; sorting uses the lexicographic order on
`List Char`. -/
def extract_unique_variables (content : List Char) : List (List Char) :=
  List.insertionSort (· ≤ ·) (dedupFirst (scanVariables content))

/-- Source `src/variables.rs::has_variables`. -/
def has_variables (content : List Char) : Bool :=
  ¬ (extract_variables content).isEmpty

/-- Source `src/variables.rs::count_variables`. -/
def count_variables (content : List Char) : Nat :=
  (extract_variables content).length

/-- Drop one trailing carriage return, if present; part of Rust
`str::lines`. -/
def stripCrEnd (l : List Char) : List Char :=
  if l.getLast? = some '\r' then l.dropLast else l

/-- Rust `str::lines`: split at `\n`, drop a final empty piece produced by a
trailing `\n`, and strip the `\r` of every `\r\n` line ending (a piece followed
by `\n` in the input).  A bare final `\r` not followed by `\n` is kept. -/
def rustLines (content : List Char) : List (List Char) :=
  if content = [] then []
  else
    let qs := content.splitOn '\n'
    let last := qs.getLastD []
    if last = [] then qs.dropLast.map stripCrEnd
    else qs.dropLast.map stripCrEnd ++ [last]

/-- A single checklist item (`src/checklist.rs::ChecklistItem`). -/
structure ChecklistItem where
  text : List Char
  checked : Bool
  indent : Nat
  ac_refs : List (List Char)
deriving DecidableEq, Repr

/-- Fuel-driven worker for `acFind`; fuel only makes the recursion structural. -/
def acFindF : Nat → List Char → Option (List Char)
  | 0, _ => none
  | _ + 1, [] => none
  | fuel + 1, '(' :: 'A' :: 'C' :: ':' :: rest =>
    let inner := rest.takeWhile (fun c => c ≠ ')')
    let after := rest.dropWhile (fun c => c ≠ ')')
    if inner.isEmpty || after.isEmpty then acFindF fuel ('A' :: 'C' :: ':' :: rest)
    else some inner
  | fuel + 1, _ :: rest => acFindF fuel rest

/-- Leftmost match of `src/checklist.rs::AC_REF_REGEX = \(AC:\s*([^)]+)\)`:
the first position where the literal `(AC:` is followed, before the next `)`,
by at least one character.  Returns everything strictly between `(AC:` and that
`)` (the capture-group adjustment for the leading `\s*` is `acCapture`). -/
def acFind (l : List Char) : Option (List Char) := acFindF l.length l

/-- The capture group of `AC_REF_REGEX`: the greedy `\s*` absorbs the leading
whitespace of the inner text, except that when the inner text is all
whitespace it backtracks by one so that `[^)]+` is non-empty. -/
def acCapture (inner : List Char) : List Char :=
  inner.drop (min (inner.takeWhile isUnicodeWs).length (inner.length - 1))

/-- The post-processing of `src/checklist.rs::extract_ac_refs`: split on
commas, trim each piece, drop the pieces that trim to nothing. -/
def splitTrimFilter (l : List Char) : List (List Char) :=
  ((l.splitOn ',').map trim).filter (fun s => !s.isEmpty)

/-- Source `src/checklist.rs::extract_ac_refs`: split the first `(AC: ...)` capture on
commas, trim each piece, drop empty pieces. -/
def extract_ac_refs (text : List Char) : List (List Char) :=
  match acFind text with
  | some inner => splitTrimFilter (acCapture inner)
  | none => []

/-- One iteration of the loop of `src/checklist.rs::extract_checklist_items`:
match the line against `CHECKLIST_REGEX = ^(\s*)- \[([ xX])\] (.+)$`.
The anchored match forces the `\s*` group to be exactly the maximal leading
whitespace run (the next character must be `-`); `.` excludes `\n`, so the
remainder must be non-empty and newline-free; `indent` is the Rust byte length
of the whitespace group divided by two; `checked` is
`eq_ignore_ascii_case("x")`. -/
def parseChecklistLine (line : List Char) : Option ChecklistItem :=
  match line.dropWhile isUnicodeWs with
  | '-' :: ' ' :: '[' :: m :: ']' :: ' ' :: rest =>
    if (m == ' ' || m == 'x' || m == 'X') && !rest.isEmpty && !rest.contains '\n' then
      some { text := rest,
             checked := m == 'x' || m == 'X',
             indent := utf8ByteLen (line.takeWhile isUnicodeWs) / 2,
             ac_refs := extract_ac_refs rest }
    else none
  | _ => none

/-- Source `src/checklist.rs::extract_checklist_items`: scan the content line by
line, keeping the items of the lines that match `CHECKLIST_REGEX` in source
order. -/
def extract_checklist_items (content : List Char) : List ChecklistItem :=
  (rustLines content).filterMap parseChecklistLine

/-- Source `src/section.rs::SectionType`. -/
inductive SectionType where
  | heading
  | paragraph
  | list
  | code
  | table
  | blockquote
  | horizontalRule
  | checklist
  | choice
deriving DecidableEq, Repr

/-- Source `src/section.rs::ParsedSection`.  The `id` field is a fresh UUID in the
default mode and `""` in the deterministic `without_ids` mode; the embedding
fixes the deterministic mode, every other field is mode-independent.  The Rust
field `variables` is renamed `vars` because `variables` is a reserved word in
Lean 4. -/
structure ParsedSection where
  id : List Char
  section_type : SectionType
  level : Option Nat
  content : List Char
  order_idx : Nat
  vars : List (List Char)
deriving DecidableEq, Repr

/-- Source `src/document.rs::EdgeType`. -/
inductive EdgeType where
  | follows
  | contains
deriving DecidableEq, Repr

/-- Source `src/document.rs::ParsedEdge`. -/
structure ParsedEdge where
  source_idx : Nat
  target_idx : Nat
  edge_type : EdgeType
deriving DecidableEq, Repr

/-- Source `pulldown_cmark::HeadingLevel`. -/
inductive HeadingLevel where
  | h1 | h2 | h3 | h4 | h5 | h6
deriving DecidableEq, Repr

/-- Source `src/parser.rs::heading_level_to_u8`. -/
def heading_level_to_u8 : HeadingLevel → Nat
  | .h1 => 1
  | .h2 => 2
  | .h3 => 3
  | .h4 => 4
  | .h5 => 5
  | .h6 => 6

/-- The pulldown-cmark events distinguished by `MarkdownParser::parse`;
`other` stands for every event that falls into the `_ => {}` arm
(item tags, emphasis, links, ...). -/
inductive MdEvent where
  | startHeading (level : HeadingLevel)
  | endHeading
  | startParagraph
  | endParagraph
  | startCodeBlock
  | endCodeBlock
  | startList
  | endList
  | startBlockQuote
  | endBlockQuote
  | startTable
  | endTable
  | rule
  | text (s : List Char)
  | inlineCode (s : List Char)
  | softBreak
  | hardBreak
  | other
deriving DecidableEq, Repr

/-- The mutable locals of `MarkdownParser::parse` (event-reducer state). -/
structure RState where
  sections : List ParsedSection
  current_content : List Char
  current_type : Option SectionType
  current_level : Option Nat
  order_idx : Nat
  all_variables : List (List Char)
  title : Option (List Char)
  blockquote_depth : Nat
  list_depth : Nat
deriving DecidableEq, Repr

/-- Reducer state at the top of `MarkdownParser::parse`. -/
def initState : RState :=
  { sections := [], current_content := [], current_type := none, current_level := none,
    order_idx := 0, all_variables := [], title := none, blockquote_depth := 0, list_depth := 0 }

/-- Source `MarkdownParser::flush_section`: if a section type is active and the
trimmed buffer is non-empty, append a finalized section carrying the next
order index and the placeholders of its content; always clear the buffer and
the heading level. -/
def flush_section (s : RState) : RState :=
  match s.current_type with
  | some st =>
    let trimmed := trim s.current_content
    if trimmed ≠ [] then
      let vs := extract_variables trimmed
      { s with
        sections := s.sections ++
          [{ id := [], section_type := st, level := s.current_level, content := trimmed,
             order_idx := s.order_idx, vars := vs }],
        all_variables := s.all_variables ++ vs,
        order_idx := s.order_idx + 1,
        current_content := [], current_type := none, current_level := none }
    else
      { s with current_content := [], current_type := none, current_level := none }
  | none => { s with current_content := [], current_level := none }

/-- One iteration of the event loop of `MarkdownParser::parse`. -/
def step (s : RState) (e : MdEvent) : RState :=
  match e with
  | .startHeading lv =>
    let s := flush_section s
    { s with current_type := some .heading, current_level := some (heading_level_to_u8 lv) }
  | .endHeading =>
    let s :=
      if s.title = none ∧ s.current_level = some 1 then
        { s with title := some (trim s.current_content) }
      else s
    flush_section s
  | .startParagraph =>
    if s.blockquote_depth = 0 ∧ s.list_depth = 0 then
      let s := flush_section s
      { s with current_type := some .paragraph }
    else s
  | .endParagraph =>
    if s.blockquote_depth = 0 ∧ s.list_depth = 0 then flush_section s else s
  | .startCodeBlock =>
    let s := flush_section s
    { s with current_type := some .code }
  | .endCodeBlock => flush_section s
  | .startList =>
    let s :=
      if s.list_depth = 0 then
        let s := flush_section s
        { s with current_type := some .list }
      else s
    { s with list_depth := s.list_depth + 1 }
  | .endList =>
    let s := { s with list_depth := s.list_depth - 1 }
    if s.list_depth = 0 then flush_section s else s
  | .startBlockQuote =>
    let s :=
      if s.blockquote_depth = 0 then
        let s := flush_section s
        { s with current_type := some .blockquote }
      else s
    { s with blockquote_depth := s.blockquote_depth + 1 }
  | .endBlockQuote =>
    let s := { s with blockquote_depth := s.blockquote_depth - 1 }
    if s.blockquote_depth = 0 then flush_section s else s
  | .startTable =>
    let s := flush_section s
    { s with current_type := some .table }
  | .endTable => flush_section s
  | .rule =>
    let s := flush_section s
    { s with
      sections := s.sections ++
        [{ id := [], section_type := .horizontalRule, level := none, content := str "---",
           order_idx := s.order_idx, vars := [] }],
      order_idx := s.order_idx + 1 }
  | .text t => { s with current_content := s.current_content ++ t }
  | .inlineCode t => { s with current_content := s.current_content ++ t }
  | .softBreak => { s with current_content := s.current_content ++ [Char.ofNat 10] }
  | .hardBreak => { s with current_content := s.current_content ++ [Char.ofNat 10] }
  | .other => s

/-- The whole event loop of `MarkdownParser::parse` followed by the trailing
`flush_section` call. -/
def runReducer (events : List MdEvent) : RState :=
  flush_section (events.foldl step initState)

/-- Source `MarkdownParser::generate_edges`: a `Follows` edge from every section to
its successor (`for i in 0..sections.len().saturating_sub(1)`). -/
def generate_edges (sections : List ParsedSection) : List ParsedEdge :=
  (List.range (sections.length - 1)).map
    (fun i => { source_idx := i, target_idx := i + 1, edge_type := .follows })

/-- Rust `Vec::dedup` (`src/parser.rs` line 275): remove *consecutive*
duplicates. -/
def dedupAdj [DecidableEq α] : List α → List α
  | [] => []
  | [a] => [a]
  | a :: b :: t => if a = b then dedupAdj (b :: t) else a :: dedupAdj (b :: t)

/-- Source `src/error.rs::ParseError`.  Error messages are carried as text. -/
inductive ParseError where
  | invalidStructure (msg : List Char)
  | frontmatterError (msg : List Char)
  | ioError
deriving DecidableEq, Repr

/-- The structured metadata value of the frontmatter collaborator, modelled as
a flat key/value association. -/
def YamlMap : Type := List (List Char × List Char)

instance : DecidableEq YamlMap := by
  unfold YamlMap
  infer_instance

/-- Rust `str::find` for a pattern, returning the index of the leftmost
occurrence (character index; all patterns searched for in the modelled code
are ASCII, so character and byte indices coincide at every slice boundary
used). -/
def findSub (pat : List Char) : List Char → Option Nat
  | [] => if pat.isEmpty then some 0 else none
  | c :: rest =>
    if pat.isPrefixOf (c :: rest) then some 0
    else (findSub pat rest).map (· + 1)

/-- Modelled from the spec (§6, Metadata Block Stripper collaborator): the
missing `serde_yaml::from_str::<HashMap<String, Value>>` is modelled as a flat
key/value reader — every line that is non-empty after trimming must contain a
`:` separating key from value; otherwise the content is malformed and the
parse fails.  An empty or all-blank content parses to the empty mapping, as
the Rust comment documents. -/
def yamlParse (s : List Char) : Option YamlMap :=
  let ls := (rustLines s).filter (fun l => !(trim l).isEmpty)
  if ls.all (fun l => l.contains ':') then
    some (ls.map (fun l =>
      (trim (l.takeWhile (fun c => c ≠ ':')), trim ((l.dropWhile (fun c => c ≠ ':')).tail))))
  else none

/-- Source `src/frontmatter.rs::strip_frontmatter`, parameterized by the external
YAML collaborator: detect the opening `---` as a *prefix* of the
whitespace-trimmed content, find the first `\n---` after it, cut out the text
between, hand it to the collaborator, and return the remaining content with
leading newlines removed; without both delimiters, the original content is
returned unchanged with no mapping. -/
def stripFrontmatterWith (parseYaml : List Char → Option YamlMap) (content : List Char) :
    Except ParseError (List Char × Option YamlMap) :=
  let trimmed := trimStart content
  if ¬ ((str "---").isPrefixOf trimmed) then .ok (content, none)
  else
    let afterFirst := trimmed.drop 3
    match findSub (str "\n---") afterFirst with
    | some endIdx =>
      let yamlContent := afterFirst.take endIdx
      let yamlContent := if yamlContent.head? = some (Char.ofNat 10) then yamlContent.tail
                         else yamlContent
      let remaining := (afterFirst.drop (endIdx + 4)).dropWhile (fun c => c = Char.ofNat 10)
      match parseYaml yamlContent with
      | some fm => .ok (remaining, some fm)
      | none => .error (.frontmatterError yamlContent)
    | none => .ok (content, none)

/-- Source `strip_frontmatter` with the modelled collaborator plugged in. -/
def strip_frontmatter (content : List Char) : Except ParseError (List Char × Option YamlMap) :=
  stripFrontmatterWith yamlParse content

/-- Source `src/document.rs::ParsedDocument` (frontmatter feature enabled). -/
structure ParsedDocument where
  title : Option (List Char)
  sections : List ParsedSection
  variables_all : List (List Char)
  edges : List ParsedEdge
  checklist_items : List ChecklistItem
  frontmatter : Option YamlMap
deriving DecidableEq

/-- Source `MarkdownParser::parse`, parameterized by the external pulldown-cmark
tokenizer (spec §6: the structural event source is a collaborator outside the
repository): strip the frontmatter, reduce the event stream of the body,
derive the edges, sort and deduplicate the accumulated placeholder names
(`sort` then `dedup` on the vector), and extract the checklist items from the
same body text.  The Rust field `variables` of `ParsedDocument` is renamed
`variables_all` (`variables` is reserved in Lean 4). -/
def parseWith (tokenize : List Char → List MdEvent) (content : List Char) :
    Except ParseError ParsedDocument :=
  match strip_frontmatter content with
  | .error e => .error e
  | .ok (body, fm) =>
    let st := runReducer (tokenize body)
    .ok { title := st.title,
          sections := st.sections,
          variables_all := dedupAdj (List.insertionSort (· ≤ ·) st.all_variables),
          edges := generate_edges st.sections,
          checklist_items := extract_checklist_items body,
          frontmatter := fm }

instance {ε α : Type} [DecidableEq ε] [DecidableEq α] : DecidableEq (Except ε α) := fun x y =>
  match x, y with
  | .ok a, .ok b =>
    if h : a = b then isTrue (by rw [h]) else isFalse (fun hc => h (Except.ok.inj hc))
  | .error a, .error b =>
    if h : a = b then isTrue (by rw [h]) else isFalse (fun hc => h (Except.error.inj hc))
  | .ok _, .error _ => isFalse (fun hc => Except.noConfusion hc)
  | .error _, .ok _ => isFalse (fun hc => Except.noConfusion hc)

/-- Modelled from the spec (§6, Structural Event Source collaborator): the
well-nested event stream the external tokenizer delivers for
`"- Item 1\n  - Nested 1\n  - Nested 2\n- Item 2"` — a tight list whose first
item contains a nested list; item start/end tags fall into the ignored
`other` bucket. -/
def nestedListEvents : List MdEvent :=
  [.startList, .other, .text (str "Item 1"),
   .startList, .other, .text (str "Nested 1"), .other,
   .other, .text (str "Nested 2"), .other, .endList,
   .other,
   .other, .text (str "Item 2"), .other, .endList]

/-- Modelled from the spec (§6): the event stream for
`"> Quote\n>> Nested quote"` — a blockquote holding a paragraph and a nested
blockquote with its own paragraph. -/
def nestedQuoteEvents : List MdEvent :=
  [.startBlockQuote, .startParagraph, .text (str "Quote"), .endParagraph,
   .startBlockQuote, .startParagraph, .text (str "Nested quote"), .endParagraph,
   .endBlockQuote, .endBlockQuote]

/-- Modelled from the spec (§6): the external tokenizer, pinned on the two
concrete nested-container inputs. -/
def nestedTokenize (c : List Char) : List MdEvent :=
  if c = str "- Item 1\n  - Nested 1\n  - Nested 2\n- Item 2" then nestedListEvents
  else if c = str "> Quote\n>> Nested quote" then nestedQuoteEvents
  else []

/-- Tokenizer for the C2 witness: two finalized blocks, hence one edge. -/
def edgesWitnessTokenize : List Char → List MdEvent :=
  fun _ => [.startParagraph, .text (str "A"), .endParagraph, .rule]


/-- The document of the C2 witness. -/
def edgesWitnessDoc : ParsedDocument :=
  (parseWith edgesWitnessTokenize []).toOption.getD
    { title := none, sections := [], variables_all := [], edges := [],
      checklist_items := [], frontmatter := none }


/-- Reducer invariant: the running order index equals the number of finalized
sections, and the finalized sections carry the order indices `0, 1, 2, ...`
in order. -/
def ordInv (s : RState) : Prop :=
  s.order_idx = s.sections.length ∧
  s.sections.map (·.order_idx) = List.range s.sections.length


/-- Tokenizer for the C3 witness: a rule block followed by a paragraph. -/
def orderWitnessTokenize : List Char → List MdEvent :=
  fun _ => [.rule, .startParagraph, .text (str "A"), .endParagraph]


/-- The document of the C3 witness. -/
def orderWitnessDoc : ParsedDocument :=
  (parseWith orderWitnessTokenize []).toOption.getD
    { title := none, sections := [], variables_all := [], edges := [],
      checklist_items := [], frontmatter := none }


/-- The checklist line grammar exactly as C4 words it: a run of leading *space*
characters, then `- [`, one marker among space/`x`/`X`, `] `, and a non-empty
remainder. -/
def checklistLineClaimGrammar (line : List Char) : Prop :=
  ∃ (n : Nat) (m : Char) (rest : List Char),
    line = List.replicate n ' ' ++ '-' :: ' ' :: '[' :: m :: ']' :: ' ' :: rest ∧
    (m = ' ' ∨ m = 'x' ∨ m = 'X') ∧ rest ≠ []


/-- The grammar `CHECKLIST_REGEX` actually implements: a leading run of
Unicode-whitespace characters, then `- [`, one marker among space/`x`/`X`,
`] `, and a non-empty newline-free remainder. -/
def checklistLineWsGrammar (line : List Char) : Prop :=
  ∃ (ws : List Char) (m : Char) (rest : List Char),
    line = ws ++ '-' :: ' ' :: '[' :: m :: ']' :: ' ' :: rest ∧
    (∀ c ∈ ws, isUnicodeWs c = true) ∧
    (m = ' ' ∨ m = 'x' ∨ m = 'X') ∧ rest ≠ [] ∧ '\n' ∉ rest


/-- The number of leading space characters of a line — the quantity C6's
wording divides by two. -/
def leadingSpaceCount (line : List Char) : Nat :=
  (line.takeWhile (fun c => c == ' ')).length


/-- C5 claim-side reading: the reference list derived from the *entire* inner
content of the first `(AC: ...)` parenthetical — no capture-group whitespace
adjustment, following the claim's words. -/
def acRefsClaim (text : List Char) : List (List Char) :=
  match acFind text with
  | some inner => splitTrimFilter inner
  | none => []

/-- C1: Paragraph Start/End events are ignored by the reducer while the
list-nesting or blockquote-nesting depth is positive, and consequently the
nested-list input parses to exactly one `List` block and the nested-blockquote
input to exactly one `Blockquote` block. -/
theorem paragraphs_ignored_inside_containers (s : RState)
    (h : 0 < s.list_depth ∨ 0 < s.blockquote_depth) :
    step s .startParagraph = s ∧ step s .endParagraph = s ∧
    (parseWith nestedTokenize (str "- Item 1\n  - Nested 1\n  - Nested 2\n- Item 2")).map
      (fun d => d.sections.map (·.section_type)) = .ok [.list] ∧
    (parseWith nestedTokenize (str "> Quote\n>> Nested quote")).map
      (fun d => d.sections.map (·.section_type)) = .ok [.blockquote] := by
  refine ⟨?_, ?_, by decide, by decide⟩
  · simp only [step]
    rw [if_neg (by omega)]
  · simp only [step]
    rw [if_neg (by omega)]

/-- Witness for C1 at a state one list level deep. -/
theorem paragraphs_ignored_inside_containers_witness :
    (0 < ({ initState with list_depth := 1 } : RState).list_depth ∨
       0 < ({ initState with list_depth := 1 } : RState).blockquote_depth) ∧
    (step { initState with list_depth := 1 } .startParagraph =
        { initState with list_depth := 1 } ∧
      step { initState with list_depth := 1 } .endParagraph =
        { initState with list_depth := 1 } ∧
      (parseWith nestedTokenize (str "- Item 1\n  - Nested 1\n  - Nested 2\n- Item 2")).map
        (fun d => d.sections.map (·.section_type)) = .ok [.list] ∧
      (parseWith nestedTokenize (str "> Quote\n>> Nested quote")).map
        (fun d => d.sections.map (·.section_type)) = .ok [.blockquote]) :=
  ⟨Or.inl (by decide),
   paragraphs_ignored_inside_containers { initState with list_depth := 1 } (Or.inl (by decide))⟩

/-- A successful parse carries exactly the edges generated from its sections. -/
theorem parse_ok_edges (tokenize : List Char → List MdEvent) (content : List Char)
    (d : ParsedDocument) (h : parseWith tokenize content = .ok d) :
    d.edges = generate_edges d.sections := by
  unfold parseWith at h
  cases hs : strip_frontmatter content with
  | error e => rw [hs] at h; cases h
  | ok bf =>
    obtain ⟨body, fm⟩ := bf
    rw [hs] at h
    cases h
    rfl

/-- C2: every parsed document has `max(#sections − 1, 0)` edges (here
`#sections − 1` in truncated ℕ subtraction), the i-th of which joins section i
to section i+1 with kind `Follows`; in particular no other edge kind occurs. -/
theorem edges_are_follows_chain (tokenize : List Char → List MdEvent) (content : List Char)
    (d : ParsedDocument) (h : parseWith tokenize content = .ok d) :
    d.edges.length = d.sections.length - 1 ∧
    ∀ i, i < d.edges.length →
      d.edges[i]? =
        some { source_idx := i, target_idx := i + 1, edge_type := EdgeType.follows } := by
  have he := parse_ok_edges tokenize content d h
  constructor
  · rw [he]; simp [generate_edges]
  · intro i hi
    have hi' : i < d.sections.length - 1 := by
      rw [he] at hi; simpa [generate_edges] using hi
    rw [he]
    simp [generate_edges, List.getElem?_map, List.getElem?_range hi']

/-- Witness for C2 on a concrete two-section document. -/
theorem edges_are_follows_chain_witness :
    parseWith edgesWitnessTokenize [] = .ok edgesWitnessDoc ∧
    (edgesWitnessDoc.edges.length = edgesWitnessDoc.sections.length - 1 ∧
      ∀ i, i < edgesWitnessDoc.edges.length →
        edgesWitnessDoc.edges[i]? =
          some { source_idx := i, target_idx := i + 1, edge_type := EdgeType.follows }) :=
  ⟨by decide, edges_are_follows_chain edgesWitnessTokenize [] edgesWitnessDoc (by decide)⟩

theorem ordInv_append (l : List ParsedSection) (sec : ParsedSection)
    (h1 : l.map (·.order_idx) = List.range l.length) (hsec : sec.order_idx = l.length) :
    (l ++ [sec]).map (·.order_idx) = List.range (l ++ [sec]).length := by
  rw [List.map_append, List.length_append, h1]
  simp [hsec, List.range_succ]

theorem ordInv_flush (s : RState) (h : ordInv s) : ordInv (flush_section s) := by
  obtain ⟨h1, h2⟩ := h
  unfold flush_section
  cases hct : s.current_type with
  | none => exact ⟨h1, h2⟩
  | some st =>
    simp only
    split
    · refine ⟨?_, ?_⟩
      · simp [h1]
      · exact ordInv_append s.sections _ h2 (by simpa using h1)
    · exact ⟨h1, h2⟩

theorem ordInv_step (s : RState) (e : MdEvent) (h : ordInv s) : ordInv (step s e) := by
  have hproj : ∀ t : RState, ordInv t →
      ∀ u : RState, u.sections = t.sections → u.order_idx = t.order_idx → ordInv u := by
    intro t ht u hu1 hu2
    exact ⟨by rw [hu2, hu1]; exact ht.1, by rw [hu1]; exact ht.2⟩
  cases e with
  | startHeading lv => exact hproj _ (ordInv_flush s h) _ rfl rfl
  | endHeading =>
    simp only [step]
    split
    · exact ordInv_flush _ (hproj s h _ rfl rfl)
    · exact ordInv_flush _ h
  | startParagraph =>
    simp only [step]
    split
    · exact hproj _ (ordInv_flush s h) _ rfl rfl
    · exact h
  | endParagraph =>
    simp only [step]
    split
    · exact ordInv_flush _ h
    · exact h
  | startCodeBlock => exact hproj _ (ordInv_flush s h) _ rfl rfl
  | endCodeBlock => exact ordInv_flush _ h
  | startList =>
    simp only [step]
    split
    · exact hproj _ (ordInv_flush s h) _ rfl rfl
    · exact hproj _ h _ rfl rfl
  | endList =>
    simp only [step]
    split
    · exact ordInv_flush _ (hproj s h _ rfl rfl)
    · exact hproj _ h _ rfl rfl
  | startBlockQuote =>
    simp only [step]
    split
    · exact hproj _ (ordInv_flush s h) _ rfl rfl
    · exact hproj _ h _ rfl rfl
  | endBlockQuote =>
    simp only [step]
    split
    · exact ordInv_flush _ (hproj s h _ rfl rfl)
    · exact hproj _ h _ rfl rfl
  | startTable => exact hproj _ (ordInv_flush s h) _ rfl rfl
  | endTable => exact ordInv_flush _ h
  | rule =>
    have hf := ordInv_flush s h
    refine ⟨?_, ?_⟩
    · simp [step, hf.1]
    · simp only [step]
      exact ordInv_append _ _ hf.2 (by simpa using hf.1)
  | text t => exact hproj _ h _ rfl rfl
  | inlineCode t => exact hproj _ h _ rfl rfl
  | softBreak => exact hproj _ h _ rfl rfl
  | hardBreak => exact hproj _ h _ rfl rfl
  | other => exact h

theorem ordInv_foldl (events : List MdEvent) :
    ∀ s : RState, ordInv s → ordInv (events.foldl step s) := by
  induction events with
  | nil => intro s h; exact h
  | cons e es ih => intro s h; exact ih _ (ordInv_step s e h)

theorem ordInv_runReducer (events : List MdEvent) : ordInv (runReducer events) :=
  ordInv_flush _ (ordInv_foldl events initState ⟨rfl, rfl⟩)

/-- A successful parse carries the sections of the reduced body events. -/
theorem parse_ok_sections_range (tokenize : List Char → List MdEvent) (content : List Char)
    (d : ParsedDocument) (h : parseWith tokenize content = .ok d) :
    d.sections.map (·.order_idx) = List.range d.sections.length := by
  unfold parseWith at h
  cases hs : strip_frontmatter content with
  | error e => rw [hs] at h; cases h
  | ok bf =>
    obtain ⟨body, fm⟩ := bf
    rw [hs] at h
    cases h
    exact (ordInv_runReducer (tokenize body)).2

/-- C3: in every parsed document the i-th section carries order index i —
order indices are assigned consecutively from 0 in finalization order,
Rule sections included. -/
theorem order_idx_is_position (tokenize : List Char → List MdEvent) (content : List Char)
    (d : ParsedDocument) (h : parseWith tokenize content = .ok d)
    (i : Nat) (hi : i < d.sections.length) :
    (d.sections.get ⟨i, hi⟩).order_idx = i := by
  have hmap := parse_ok_sections_range tokenize content d h
  have h2 : (d.sections.map (·.order_idx))[i]? = some i := by
    rw [hmap]
    exact List.getElem?_range hi
  rw [List.getElem?_map, List.getElem?_eq_getElem hi] at h2
  simpa using h2

/-- Witness for C3: the second section (a paragraph following a Rule block)
has order index 1. -/
theorem order_idx_is_position_witness :
    parseWith orderWitnessTokenize [] = .ok orderWitnessDoc ∧
    1 < orderWitnessDoc.sections.length ∧
    (orderWitnessDoc.sections.get ⟨1, by decide⟩).order_idx = 1 :=
  ⟨by decide, by decide,
   order_idx_is_position orderWitnessTokenize [] orderWitnessDoc (by decide) 1 (by decide)⟩

/-- C10: every extracted checklist item has non-empty text (the regex group
`(.+)` requires at least one character after the `] `), and in particular
`"- [ ] "` yields no item at all. -/
theorem checklist_item_text_nonempty :
    (∀ (content : List Char) (it : ChecklistItem),
        it ∈ extract_checklist_items content → it.text ≠ []) ∧
    extract_checklist_items (str "- [ ] ") = [] := by
  constructor
  · intro content it hmem
    rw [extract_checklist_items, List.mem_filterMap] at hmem
    obtain ⟨line, -, hline⟩ := hmem
    rw [parseChecklistLine] at hline
    split at hline
    · rename_i m rest heq
      split at hline
      · rename_i hcond
        cases hline
        have hne : rest ≠ [] := by
          rcases Bool.and_eq_true .. ▸ hcond with ⟨h1, -⟩
          have := (Bool.and_eq_true .. ▸ h1).2
          simpa using this
        simpa using hne
      · exact absurd hline (by simp)
    · exact absurd hline (by simp)
  · decide

/-- Witness for C10 on the item of `"- [x] a"`. -/
theorem checklist_item_text_nonempty_witness :
    ({ text := str "a", checked := true, indent := 0, ac_refs := [] } : ChecklistItem) ∈
        extract_checklist_items (str "- [x] a") ∧
    ({ text := str "a", checked := true, indent := 0, ac_refs := [] } : ChecklistItem).text ≠ [] :=
  ⟨by decide,
   checklist_item_text_nonempty.1 (str "- [x] a")
     { text := str "a", checked := true, indent := 0, ac_refs := [] } (by decide)⟩

theorem claimGrammar_head (line : List Char) (h : checklistLineClaimGrammar line) :
    line.head? = some ' ' ∨ line.head? = some '-' := by
  obtain ⟨n, m, rest, heq, -, -⟩ := h
  cases n with
  | zero => right; rw [heq]; rfl
  | succ k => left; rw [heq]; rfl

/-- C4 counterexample: the regex class `\s` in `CHECKLIST_REGEX` matches any
whitespace, not only spaces, so the tab-indented line `"\t- [x] Task"` *does*
produce a checklist item although it does not fit the claimed
space-indented grammar. -/
theorem checklist_grammar_space_only_cex :
    (extract_checklist_items (str "\t- [x] Task")).map (fun i => i.text) = [str "Task"] ∧
    ¬ checklistLineClaimGrammar (str "\t- [x] Task") := by
  refine ⟨by decide, fun h => ?_⟩
  have := claimGrammar_head _ h
  revert this
  decide

theorem dropWhile_ws_append (ws r : List Char) (hws : ∀ c ∈ ws, isUnicodeWs c = true) :
    (ws ++ '-' :: r).dropWhile isUnicodeWs = '-' :: r := by
  induction ws with
  | nil =>
    have hdash : isUnicodeWs '-' = false := by decide
    simp [List.dropWhile_cons, hdash]
  | cons c ws ih =>
    have hc : isUnicodeWs c = true := hws c (List.mem_cons_self c ws)
    simp only [List.cons_append, List.dropWhile_cons, hc, if_true]
    exact ih (fun d hd => hws d (List.mem_cons_of_mem c hd))

/-- C4 amended: a line produces a checklist item iff, after some run of
leading *whitespace* characters (the regex class `\s`: spaces, tabs, and the
other Unicode whitespace), it reads `- [`, one marker character among
space/`x`/`X`, `] `, then a non-empty newline-free remainder which becomes the
item text; the checked flag is true iff the marker is `x` or `X`. -/
theorem checklist_line_grammar (line : List Char) :
    match parseChecklistLine line with
    | some it =>
      ∃ (ws : List Char) (m : Char) (rest : List Char),
        line = ws ++ '-' :: ' ' :: '[' :: m :: ']' :: ' ' :: rest ∧
        (∀ c ∈ ws, isUnicodeWs c = true) ∧
        (m = ' ' ∨ m = 'x' ∨ m = 'X') ∧ rest ≠ [] ∧ '\n' ∉ rest ∧
        it.text = rest ∧ (it.checked = true ↔ (m = 'x' ∨ m = 'X'))
    | none => ¬ checklistLineWsGrammar line := by
  cases hp : parseChecklistLine line with
  | some it =>
    rw [parseChecklistLine] at hp
    split at hp
    · rename_i m rest heq
      split at hp
      · rename_i hcond
        cases hp
        have hm : (m == ' ' || m == 'x' || m == 'X') = true := by
          rcases Bool.and_eq_true .. ▸ hcond with ⟨h1, -⟩
          exact (Bool.and_eq_true .. ▸ h1).1
        have hne : rest ≠ [] := by
          rcases Bool.and_eq_true .. ▸ hcond with ⟨h1, -⟩
          have := (Bool.and_eq_true .. ▸ h1).2
          simpa using this
        have hnl : '\n' ∉ rest := by
          rcases Bool.and_eq_true .. ▸ hcond with ⟨-, h2⟩
          simpa using h2
        refine ⟨line.takeWhile isUnicodeWs, m, rest, ?_, ?_, ?_, hne, hnl, rfl, ?_⟩
        · conv_lhs => rw [← List.takeWhile_append_dropWhile isUnicodeWs line]
          rw [heq]
        · exact fun c hc => List.mem_takeWhile_imp hc
        · have hm' : (m = ' ' ∨ m = 'x') ∨ m = 'X' := by simpa using hm
          tauto
        · simp
      · exact absurd hp (by simp)
    · exact absurd hp (by simp)
  | none =>
    rintro ⟨ws, m2, rest2, hline, hws, hm2, hrest2, hnl2⟩
    have hd := dropWhile_ws_append ws (' ' :: '[' :: m2 :: ']' :: ' ' :: rest2) hws
    rw [← hline] at hd
    rw [parseChecklistLine] at hp
    split at hp
    · rename_i m rest heq
      split at hp
      · exact absurd hp (by simp)
      · rename_i hcond
        rw [heq] at hd
        simp only [List.cons.injEq] at hd
        obtain ⟨-, -, -, hmm, -, -, hrr⟩ := hd
        subst hmm; subst hrr
        apply hcond
        have hm : (m == ' ' || m == 'x' || m == 'X') = true := by
          rcases hm2 with h | h | h <;> simp [h]
        simp [hm, hrest2, hnl2]
    · rename_i hnomatch
      exact hnomatch m2 rest2 hd

/-- Witness for the amended C4 grammar at a concrete matching line. -/
theorem checklist_line_grammar_witness :
    match parseChecklistLine (str "  - [x] hi") with
    | some it =>
      ∃ (ws : List Char) (m : Char) (rest : List Char),
        str "  - [x] hi" = ws ++ '-' :: ' ' :: '[' :: m :: ']' :: ' ' :: rest ∧
        (∀ c ∈ ws, isUnicodeWs c = true) ∧
        (m = ' ' ∨ m = 'x' ∨ m = 'X') ∧ rest ≠ [] ∧ '\n' ∉ rest ∧
        it.text = rest ∧ (it.checked = true ↔ (m = 'x' ∨ m = 'X'))
    | none => ¬ checklistLineWsGrammar (str "  - [x] hi") :=
  checklist_line_grammar (str "  - [x] hi")

/-- C6 counterexample: on the tab-indented line `"\t\t- [x] T"` the code
computes indent `1` (two whitespace *bytes*), while the claimed formula
`floor(leading space count / 2)` gives `0` — `\s*` matches tabs and
`indent_str.len()` counts bytes, not spaces. -/
theorem checklist_indent_spaces_cex :
    (extract_checklist_items (str "\t\t- [x] T")).map (fun i => i.indent) = [1] ∧
    leadingSpaceCount (str "\t\t- [x] T") / 2 = 0 ∧ (1 : Nat) ≠ 0 := by decide

theorem utf8ByteLen_spaces (l : List Char) (h : ∀ c ∈ l, c = ' ') :
    utf8ByteLen l = l.length := by
  induction l with
  | nil => rfl
  | cons c t ih =>
    have hc : c = ' ' := h c (List.mem_cons_self c t)
    subst hc
    have ht := ih (fun d hd => h d (List.mem_cons_of_mem _ hd))
    have h1 : utf8Len ' ' = 1 := by decide
    simp only [utf8ByteLen, List.map_cons, List.sum_cons, h1, List.length_cons] at ht ⊢
    omega

/-- C6 amended: the indent of a recognized checklist line is the UTF-8 byte
length of its leading whitespace run divided by two (integer truncation);
when that run consists of spaces only, this coincides with the claimed
`floor(leading space count / 2)`. -/
theorem checklist_indent_from_bytes (line : List Char) (it : ChecklistItem)
    (h : parseChecklistLine line = some it) :
    it.indent = utf8ByteLen (line.takeWhile isUnicodeWs) / 2 ∧
    (line.takeWhile isUnicodeWs = line.takeWhile (fun c => c == ' ') →
      it.indent = leadingSpaceCount line / 2) := by
  have hind : it.indent = utf8ByteLen (line.takeWhile isUnicodeWs) / 2 := by
    rw [parseChecklistLine] at h
    split at h
    · split at h
      · cases h; rfl
      · exact absurd h (by simp)
    · exact absurd h (by simp)
  refine ⟨hind, fun hsp => ?_⟩
  rw [hind, hsp, leadingSpaceCount,
    utf8ByteLen_spaces _ (fun c hc => by simpa using List.mem_takeWhile_imp hc)]

/-- Witness for the amended C6 at the two-space-indented line `"  - [x] T"`. -/
theorem checklist_indent_from_bytes_witness :
    parseChecklistLine (str "  - [x] T") =
      some { text := str "T", checked := true, indent := 1, ac_refs := [] } ∧
    (({ text := str "T", checked := true, indent := 1, ac_refs := [] } : ChecklistItem).indent =
        utf8ByteLen ((str "  - [x] T").takeWhile isUnicodeWs) / 2 ∧
      ((str "  - [x] T").takeWhile isUnicodeWs = (str "  - [x] T").takeWhile (fun c => c == ' ') →
        ({ text := str "T", checked := true, indent := 1, ac_refs := [] } : ChecklistItem).indent =
          leadingSpaceCount (str "  - [x] T") / 2)) :=
  ⟨by decide,
   checklist_indent_from_bytes (str "  - [x] T")
     { text := str "T", checked := true, indent := 1, ac_refs := [] } (by decide)⟩

theorem trim_ws_cons (c : Char) (q : List Char) (hc : isUnicodeWs c = true) :
    trim (c :: q) = trim q := by
  unfold trim trimStart
  simp [List.dropWhile_cons, hc]

theorem splitOn_cons_of_ne (c : Char) (l : List Char) (hc : (c == ',') = false) :
    (c :: l).splitOn ',' = List.modifyHead (List.cons c) (l.splitOn ',') := by
  simp [List.splitOn, List.splitOnP_cons, hc]

theorem splitTrimFilter_ws_cons (c : Char) (l : List Char) (hc : isUnicodeWs c = true) :
    splitTrimFilter (c :: l) = splitTrimFilter l := by
  have hcomma : (c == ',') = false := by
    cases hb : c == ','
    · rfl
    · exfalso
      have : c = ',' := by simpa using hb
      rw [this] at hc
      exact absurd hc (by decide)
  obtain ⟨q, qs, hq⟩ : ∃ q qs, l.splitOn ',' = q :: qs := by
    have hne : l.splitOn ',' ≠ [] := List.splitOnP_ne_nil _ l
    cases h : l.splitOn ',' with
    | nil => exact absurd h hne
    | cons q qs => exact ⟨q, qs, rfl⟩
  unfold splitTrimFilter
  rw [splitOn_cons_of_ne c l hcomma, hq]
  simp only [List.modifyHead, List.map_cons]
  rw [trim_ws_cons c q hc]

theorem splitTrimFilter_ws_append (w l₂ : List Char) (hw : ∀ c ∈ w, isUnicodeWs c = true) :
    splitTrimFilter (w ++ l₂) = splitTrimFilter l₂ := by
  induction w with
  | nil => rfl
  | cons c w ih =>
    rw [List.cons_append, splitTrimFilter_ws_cons c _ (hw c (List.mem_cons_self c w))]
    exact ih (fun d hd => hw d (List.mem_cons_of_mem c hd))

theorem splitTrimFilter_acCapture (inner : List Char) :
    splitTrimFilter (acCapture inner) = splitTrimFilter inner := by
  set k := min (inner.takeWhile isUnicodeWs).length (inner.length - 1) with hk
  have hkle : k ≤ (inner.takeWhile isUnicodeWs).length := by
    rw [hk]; exact Nat.min_le_left _ _
  have hws : ∀ c ∈ inner.take k, isUnicodeWs c = true := by
    intro c hc
    have h1 : inner.take k = (inner.takeWhile isUnicodeWs).take k := by
      conv_lhs => rw [← List.takeWhile_append_dropWhile isUnicodeWs inner]
      exact List.take_append_of_le_length hkle
    rw [h1] at hc
    exact List.mem_takeWhile_imp (List.take_subset k _ hc)
  have hsplit : inner = inner.take k ++ inner.drop k := (List.take_append_drop k inner).symm
  calc splitTrimFilter (acCapture inner)
      = splitTrimFilter (inner.drop k) := rfl
    _ = splitTrimFilter (inner.take k ++ inner.drop k) :=
        (splitTrimFilter_ws_append _ _ hws).symm
    _ = splitTrimFilter inner := by rw [← hsplit]

/-- C5: the reference list of a text is derived from the first `(AC: ...)`
parenthetical only — its inner content split on commas, trimmed, empties
dropped, order kept; a second parenthetical is ignored and a text without the
pattern gets no references.  (The capturing group's `\s*` prefix adjustment is
invisible after trimming.) -/
theorem ac_refs_from_first_parenthetical (text : List Char) :
    extract_ac_refs text = acRefsClaim text ∧
    extract_ac_refs (str "a (AC: 1) b (AC: 2, 3)") = [str "1"] ∧
    extract_ac_refs (str "no refs here") = [] := by
  refine ⟨?_, by decide, by decide⟩
  rw [extract_ac_refs, acRefsClaim]
  cases hf : acFind text with
  | none => rfl
  | some inner => exact splitTrimFilter_acCapture inner

theorem mem_dedupFirstAux [DecidableEq α] (l : List α) :
    ∀ (seen : List α) (a : α), a ∈ dedupFirstAux seen l ↔ a ∈ l ∧ a ∉ seen := by
  induction l with
  | nil => intro seen a; simp [dedupFirstAux]
  | cons b t ih =>
    intro seen a
    by_cases hb : b ∈ seen
    · rw [dedupFirstAux, if_pos hb, ih, List.mem_cons]
      constructor
      · rintro ⟨h1, h2⟩; exact ⟨Or.inr h1, h2⟩
      · rintro ⟨h1 | h1, h2⟩
        · subst h1; exact absurd hb h2
        · exact ⟨h1, h2⟩
    · rw [dedupFirstAux, if_neg hb]
      simp only [List.mem_cons, ih]
      constructor
      · rintro (rfl | ⟨h1, h2⟩)
        · exact ⟨Or.inl rfl, hb⟩
        · exact ⟨Or.inr h1, fun hs => h2 (Or.inr hs)⟩
      · rintro ⟨h1 | h1, h2⟩
        · exact Or.inl h1
        · by_cases hab : a = b
          · exact Or.inl hab
          · exact Or.inr ⟨h1, fun hs => by
              rcases hs with hs | hs
              · exact hab hs
              · exact h2 hs⟩

theorem nodup_dedupFirstAux [DecidableEq α] (l : List α) :
    ∀ seen : List α, (dedupFirstAux seen l).Nodup := by
  induction l with
  | nil => intro seen; simp [dedupFirstAux]
  | cons b t ih =>
    intro seen
    by_cases hb : b ∈ seen
    · rw [dedupFirstAux, if_pos hb]; exact ih seen
    · rw [dedupFirstAux, if_neg hb, List.nodup_cons]
      exact ⟨fun hmem => ((mem_dedupFirstAux t (b :: seen) b).1 hmem).2
               (List.mem_cons_self b seen),
             ih (b :: seen)⟩

/-- C7: `extract_unique_variables` equals the lexicographically sorted,
deduplicated image of `extract_variables`, and both are stable under re-runs
on the same input. -/
theorem unique_vars_eq_sorted_dedup (content : List Char) :
    extract_unique_variables content =
      List.insertionSort (· ≤ ·) (extract_variables content).dedup ∧
    extract_variables content = extract_variables content ∧
    extract_unique_variables content = extract_unique_variables content := by
  refine ⟨?_, rfl, rfl⟩
  rw [extract_unique_variables, extract_variables]
  have h1 : (dedupFirst (scanVariables content)).Perm (scanVariables content).dedup := by
    unfold dedupFirst
    rw [List.perm_ext_iff_of_nodup (nodup_dedupFirstAux _ _) (List.nodup_dedup _)]
    intro a
    rw [List.mem_dedup, mem_dedupFirstAux]
    simp
  have hperm : (List.insertionSort (· ≤ ·) (dedupFirst (scanVariables content))).Perm
      (List.insertionSort (· ≤ ·) (scanVariables content).dedup) :=
    ((List.perm_insertionSort _ _).trans h1).trans (List.perm_insertionSort _ _).symm
  exact List.eq_of_perm_of_sorted hperm
    (List.sorted_insertionSort _ _) (List.sorted_insertionSort _ _)

/-- C8 counterexample: on `"---x\n---\nbody"` the trimmed text does *not*
begin with a line of exactly three dashes (its first line is `---x`), yet
`strip_frontmatter` does not return the original text — the code only checks
the three-character prefix `---`, goes on to treat `x` as metadata, and
(the collaborator rejecting the bare scalar `x` as a mapping) fails. -/
theorem frontmatter_exact_dash_line_cex :
    (trimStart (str "---x\n---\nbody")).takeWhile (fun c => c ≠ '\n') ≠ str "---" ∧
    strip_frontmatter (str "---x\n---\nbody") ≠ .ok (str "---x\n---\nbody", none) ∧
    strip_frontmatter (str "---x\n---\nbody") = .error (.frontmatterError (str "x")) := by
  refine ⟨by decide, by decide, by decide⟩

/-- C8 amended: if the whitespace-trimmed text does not begin with the three
characters `---` (a prefix check, not an exactly-three-dash line check), or no
`\n---` occurs after that prefix, then `strip_frontmatter` returns the
original text unchanged and no metadata mapping — whatever the metadata
collaborator does. -/
theorem strip_frontmatter_passthrough (parseYaml : List Char → Option YamlMap)
    (content : List Char)
    (h : (str "---").isPrefixOf (trimStart content) = false ∨
      findSub (str "\n---") ((trimStart content).drop 3) = none) :
    stripFrontmatterWith parseYaml content = .ok (content, none) := by
  unfold stripFrontmatterWith
  by_cases hp : (str "---").isPrefixOf (trimStart content) = true
  · rw [if_neg (by simp [hp])]
    rcases h with h | h
    · rw [hp] at h; cases h
    · simp only [h]
  · rw [if_pos (by simp [Bool.not_eq_true] at hp ⊢; exact hp)]

/-- Witness for the amended C8 on content without any dashes. -/
theorem strip_frontmatter_passthrough_witness :
    ((str "---").isPrefixOf (trimStart (str "hello")) = false ∨
      findSub (str "\n---") ((trimStart (str "hello")).drop 3) = none) ∧
    stripFrontmatterWith yamlParse (str "hello") = .ok (str "hello", none) :=
  ⟨Or.inl (by decide),
   strip_frontmatter_passthrough yamlParse (str "hello") (Or.inl (by decide))⟩

theorem strip_frontmatter_error_shape (parseYaml : List Char → Option YamlMap)
    (content : List Char) (e : ParseError)
    (h : stripFrontmatterWith parseYaml content = .error e) :
    ∃ m, e = .frontmatterError m := by
  simp only [stripFrontmatterWith] at h
  split at h
  · cases h
  · split at h
    · split at h
      · cases h
      · cases h; exact ⟨_, rfl⟩
    · cases h

/-- C9: the metadata block is the only failure point of `parse`: when
`strip_frontmatter` fails, `parse` propagates exactly that error — which is
always the distinguishable `FrontmatterError` variant — and returns no
document; when it succeeds, the event reducer, the pattern extractors and the
edge builder always complete, so `parse` returns a document.  On the concrete
malformed metadata input `"---\nx\n---\nbody"` the parse aborts with a
`FrontmatterError`, for every tokenizer. -/
theorem parse_fails_only_on_bad_frontmatter (tokenize : List Char → List MdEvent)
    (content : List Char) :
    (match strip_frontmatter content with
     | .error e => parseWith tokenize content = .error e ∧ ∃ m, e = .frontmatterError m
     | .ok _ => ∃ d, parseWith tokenize content = .ok d) ∧
    parseWith tokenize (str "---\nx\n---\nbody") =
      .error (.frontmatterError (str "x")) := by
  constructor
  · cases hs : strip_frontmatter content with
    | error e =>
      refine ⟨by unfold parseWith; rw [hs], ?_⟩
      exact strip_frontmatter_error_shape yamlParse content e hs
    | ok bf =>
      obtain ⟨body, fm⟩ := bf
      exact ⟨_, by unfold parseWith; rw [hs]⟩
  · rfl

end MdParser
